import Mathlib

/- Verification development for git-stack-watch.

   The repository contains two variants of the program: `src/main.go`
   (commit-only) and a second `main.go` (shipped next to the README and
   Makefile) that adds a `--push` flag, a successful-commit counter and
   `pushToRemote`.  Both share the same change classifier.  This file is a
   shallow embedding of both variants:

   * Go's `path/filepath` functions `Base`, `Dir` and `Clean` (Unix rules),
     translated from the Go standard library, because the classifier's
     filename allow-list and stack-name derivation are built on them;
   * go-git's status codes and per-file status record;
   * the change classifier (`findComposeChanges`, `getStackName`) of each
     variant;
   * the commit engine and cycle controller of the push-capable variant
     (`commitStackChange`, `checkAndCommit`, `pushToRemote`), with the
     external go-git backend abstracted as a record of operations and, for
     the idempotence property, instantiated with an explicit model of the
     version-control backend state. -/

namespace GitStackWatch

/-! ### Go `path/filepath` (Unix separator rules) -/

/-- `os.IsPathSeparator` on Unix: only `'/'`. -/
def isPathSeparator (c : Char) : Bool := c == '/'

/-- The backtracking inner loop of Go's `filepath.Clean` for a `..` element:
starting from write position `w`, decrement while `w > dotdot` and the
character at `w` is not a separator; returns the final write position. -/
def backW (out : List Char) (dotdot : Nat) : Nat → Nat
  | 0 => 0
  | w + 1 =>
    if w + 1 > dotdot ∧ out.getD (w + 1) ' ' ≠ '/' then backW out dotdot w
    else w + 1

/-- The `..`-element case of Go's `filepath.Clean` main loop: either backtrack
the output buffer to the previous separator, or (when not rooted and nothing
to backtrack over) append a literal `..` element and move the `dotdot` mark. -/
def dotdotStep (rooted : Bool) (out : List Char) (dotdot : Nat) :
    List Char × Nat :=
  if out.length > dotdot then
    (out.take (backW out dotdot (out.length - 1)), dotdot)
  else if rooted = false then
    let out2 := (if out.length > 0 then out ++ ['/'] else out) ++ ['.', '.']
    (out2, out2.length)
  else (out, dotdot)

/-- Main loop of Go's `filepath.Clean`, processing the input one character at
a time.  `out` is the output buffer, `dotdot` the position up to which `..`
backtracking may erase, and `inElem` replaces Go's inner element-copying loop:
it is true while the previous character belonged to a path element being
copied verbatim. -/
def cleanLoop (rooted : Bool) : List Char → List Char → Nat → Bool → List Char
  | [], out, _, _ => out
  | [c], out, _, inElem =>
    if inElem then (if c = '/' then out else out ++ [c])
    else if c = '/' then out
    else if c = '.' then out
    else if (rooted ∧ out.length ≠ 1) ∨ (rooted = false ∧ out.length ≠ 0) then
      out ++ ['/', c]
    else out ++ [c]
  | c :: d :: rest, out, dotdot, inElem =>
    if inElem then
      if c = '/' then cleanLoop rooted (d :: rest) out dotdot false
      else cleanLoop rooted (d :: rest) (out ++ [c]) dotdot true
    else if c = '/' then cleanLoop rooted (d :: rest) out dotdot false
    else if c = '.' ∧ d = '/' then cleanLoop rooted (d :: rest) out dotdot false
    else if c = '.' ∧ d = '.' ∧ (rest = [] ∨ rest.head? = some '/') then
      let od := dotdotStep rooted out dotdot
      cleanLoop rooted rest od.1 od.2 false
    else
      let out2 :=
        if (rooted ∧ out.length ≠ 1) ∨ (rooted = false ∧ out.length ≠ 0) then
          out ++ ['/']
        else out
      cleanLoop rooted (d :: rest) (out2 ++ [c]) dotdot true

/-- Go's `filepath.Clean` on Unix (volume names are empty, `FromSlash` is the
identity). -/
def goClean (l : List Char) : List Char :=
  match l with
  | [] => ['.']
  | c :: rest =>
    let res :=
      if c = '/' then cleanLoop true rest ['/'] 1 false
      else cleanLoop false (c :: rest) [] 0 false
    if res = [] then ['.'] else res

/-- Go's `filepath.Base` on Unix: empty path gives `"."`; otherwise strip
trailing separators, keep everything after the last separator, and a path of
only separators gives `"/"`. -/
def goBase (s : String) : String :=
  if s = "" then "."
  else
    let l1 := (s.toList.reverse.dropWhile fun c => c == '/').reverse
    let last := (l1.reverse.takeWhile fun c => c != '/').reverse
    if last = [] then "/" else String.mk last

/-- Go's `filepath.Dir` on Unix: everything up to and including the final
separator, run through `Clean`. -/
def goDir (s : String) : String :=
  let pre := (s.toList.reverse.dropWhile fun c => c != '/').reverse
  String.mk (goClean pre)

/-! ### go-git status records -/

/-- go-git `StatusCode` values (`' '`, `'?'`, `'M'`, `'A'`, `'D'`, `'R'`,
`'C'`, `'U'`). -/
inductive StatusCode where
  | unmodified
  | untracked
  | modified
  | added
  | deleted
  | renamed
  | copied
  | updatedButUnmerged
  deriving DecidableEq

/-- go-git `FileStatus`: the staged (index) flag and the working-tree flag for
one path. -/
structure FileStatus where
  Staging : StatusCode
  Worktree : StatusCode
  deriving DecidableEq

/-- go-git `Status`: a finite mapping from repository-relative path to
`FileStatus`, embedded as an association list (Go map iteration order is
arbitrary, which the list order represents). -/
abbrev Status := List (String × FileStatus)

/-! ### Data model shared by both program variants -/

/-- Go `type ChangeType string`. -/
abbrev ChangeType := String

/-- Go constant `Created ChangeType = "created"`. -/
def Created : ChangeType := "created"

/-- Go constant `Updated ChangeType = "updated"`. -/
def Updated : ChangeType := "updated"

/-- Go constant `Deleted ChangeType = "deleted"`. -/
def Deleted : ChangeType := "deleted"

/-- Go `type Change struct { StackName, FilePath string; ChangeType ChangeType }`. -/
structure Change where
  StackName : String
  FilePath : String
  Kind : ChangeType
  deriving DecidableEq

/-! ### The push-capable variant (the `main.go` shipped with the README) -/

namespace Watch

/-- `getStackName`: the final component of the path's parent directory; the
sentinel `"root"` when that component is `"."` or `"/"`. -/
def getStackName (filePath : String) : String :=
  let dir := goDir filePath
  let stackName := goBase dir
  if stackName = "." ∨ stackName = "/" then "root" else stackName

/-- One iteration of the `findComposeChanges` loop: the filename allow-list,
then the first-match-wins change-kind switch; `none` models Go's `continue`. -/
def composeChangeFor (filePath : String) (fileStatus : FileStatus) :
    Option Change :=
  let fileName := goBase filePath
  if fileName ≠ "compose.yml" ∧ fileName ≠ "compose.yaml" then none
  else
    let stackName := getStackName filePath
    if fileStatus.Staging = .added ∨ fileStatus.Worktree = .untracked then
      some ⟨stackName, filePath, Created⟩
    else if fileStatus.Staging = .deleted ∨ fileStatus.Worktree = .deleted then
      some ⟨stackName, filePath, Deleted⟩
    else if fileStatus.Staging = .modified ∨ fileStatus.Worktree = .modified then
      some ⟨stackName, filePath, Updated⟩
    else none

/-- `findComposeChanges`: scan the status mapping and collect one `Change`
per surviving path. -/
def findComposeChanges (status : Status) : List Change :=
  status.filterMap fun entry => composeChangeFor entry.1 entry.2

/-- The commit message built in `commitStackChange`:
`fmt.Sprintf("%s %s", change.ChangeType, change.StackName)`. -/
def commitMsg (change : Change) : String :=
  change.Kind ++ " " ++ change.StackName

/-! #### Cycle controller

`checkAndCommit` calls the external go-git backend through `repo.Worktree()`,
`worktree.Status()`, the staging/commit calls inside `commitStackChange`, and
`pushToRemote`.  The backend is abstracted as a record of operations over an
opaque state `σ`; outputs record the report lines the Go code prints via
`fmt.Printf`/`log.Println` (one list entry per printed message). -/

structure RepoOps (σ : Type) where
  worktreeOk : σ → Except String Unit
  status : σ → Except String Status
  commitChange : σ → Change → Except String (String × σ)
  push : σ → Except String σ

/-- Result of the per-change commit loop inside `checkAndCommit`. -/
structure LoopOut (σ : Type) where
  state : σ
  logs : List String
  commitCount : Nat
  succeeded : List Change

/-- The `for _, change := range changes` loop of `checkAndCommit`: each
change is attempted independently; a failure is reported and skipped
(`continue`), a success logs the commit (the log line Go prints inside
`commitStackChange`) and increments `commitCount`. -/
def commitLoopGo (ops : RepoOps σ) : σ → List Change → LoopOut σ
  | st, [] => ⟨st, [], 0, []⟩
  | st, c :: rest =>
    match ops.commitChange st c with
    | .error e =>
      let r := commitLoopGo ops st rest
      ⟨r.state, ("Failed to commit " ++ c.StackName ++ ": " ++ e) :: r.logs,
        r.commitCount, r.succeeded⟩
    | .ok (hash, st1) =>
      let r := commitLoopGo ops st1 rest
      ⟨r.state, ("✓ Created commit " ++ hash.take 7 ++ ": " ++ commitMsg c) :: r.logs,
        r.commitCount + 1, c :: r.succeeded⟩

/-- Observable outcome of one `checkAndCommit` cycle. -/
structure CycleOut (σ : Type) where
  state : σ
  logs : List String
  commitCount : Nat
  pushInvoked : Bool
  changes : List Change
  succeeded : List Change

/-- `checkAndCommit` of the push-capable variant: scan, classify, commit each
change independently, then push only when the flag is set and at least one
commit succeeded, otherwise (when no commit was created) report the skip;
every path ends with a report line before returning.  The log lines internal
to `pushToRemote` are modelled separately by `pushToRemote` below. -/
def checkAndCommit (ops : RepoOps σ) (pushFlag : Bool) (st : σ) : CycleOut σ :=
  let l0 := ["Checking for compose file changes..."]
  match ops.worktreeOk st with
  | .error e => ⟨st, l0 ++ ["Failed to get worktree: " ++ e], 0, false, [], []⟩
  | .ok _ =>
    match ops.status st with
    | .error e => ⟨st, l0 ++ ["Failed to get status: " ++ e], 0, false, [], []⟩
    | .ok status =>
      let changes := findComposeChanges status
      if changes = [] then
        ⟨st, l0 ++ ["No compose file changes detected."], 0, false, changes, []⟩
      else
        let l1 := l0 ++ ["Found " ++ toString changes.length ++ " stack change(s):"]
          ++ changes.map (fun c =>
              "  - " ++ c.Kind ++ " " ++ c.StackName ++ " (" ++ c.FilePath ++ ")")
          ++ [""]
        let r := commitLoopGo ops st changes
        let l2 := l1 ++ r.logs
        if pushFlag ∧ r.commitCount > 0 then
          match ops.push r.state with
          | .error e =>
            ⟨r.state, l2 ++ [""] ++ ["Failed to push to remote: " ++ e] ++ ["Done.\n"],
              r.commitCount, true, changes, r.succeeded⟩
          | .ok st2 =>
            ⟨st2, l2 ++ [""] ++ ["Done.\n"], r.commitCount, true, changes, r.succeeded⟩
        else if r.commitCount = 0 then
          ⟨r.state, l2 ++ [""] ++ ["No commits were created, skipping push."] ++ ["Done.\n"],
            r.commitCount, false, changes, r.succeeded⟩
        else
          ⟨r.state, l2 ++ ["Done.\n"], r.commitCount, false, changes, r.succeeded⟩

/-! #### Push gateway -/

/-- Outcome of the underlying `repo.Push` call, an input to `pushToRemote`:
go-git returns `nil`, `NoErrAlreadyUpToDate`, `ErrRemoteNotFound`, or some
other transport/auth error. -/
inductive PushOutcome where
  | success
  | alreadyUpToDate
  | remoteNotFound
  | failure (msg : String)
  deriving DecidableEq

/-- The error value `pushToRemote` returns to its caller.  Constructors keep
the three failure shapes of the Go code distinguishable: SSH-auth setup
failure, go-git's `ErrRemoteNotFound` returned as-is, and any other push
error wrapped as `"push failed: ..."`. -/
inductive PushError where
  | authError (msg : String)
  | remoteNotFound
  | pushFailed (msg : String)
  deriving DecidableEq

/-- `pushToRemote`: build the SSH auth (may fail), push, then classify the
outcome — already-up-to-date is logged and returned as success (`none`),
a missing remote is logged distinctly and returned as an error, and any
other push error is wrapped and returned.  First component: the log lines;
second: the returned error, `none` meaning success. -/
def pushToRemote (authResult : Except String Unit) (outcome : PushOutcome) :
    List String × Option PushError :=
  let logs := ["Pushing to remote..."]
  match authResult with
  | .error e => (logs, some (.authError ("failed to create SSH auth: " ++ e)))
  | .ok _ =>
    match outcome with
    | .alreadyUpToDate => (logs ++ ["✓ Already up to date"], none)
    | .remoteNotFound => (logs ++ ["x No remote available, please add one!"], some .remoteNotFound)
    | .failure e => (logs, some (.pushFailed ("push failed: " ++ e)))
    | .success => (logs ++ ["✓ Successfully pushed to remote"], none)

/-! #### A model of the external git backend

The repository state itself lives in go-git, outside this repository's
sources; the idempotence and commit-message claims are about how
`checkAndCommit` interacts with it, so the backend is modelled here from the
spec's collaborator contracts. -/

/-- Modelled from the spec: the state of the external version-control backend
(§4.1 Status Scanner and §4.3 Commit Engine collaborator contracts, §6
"all memory of prior cycles is implicit in the repository").  `paths` lists
every path of interest (a superset of the domains of the three content maps);
`head`, `index` and `worktree` give the last-commit, staged and on-disk
content of each path; `history` is the branch history, newest first. -/
structure GitState where
  paths : List String
  head : String → Option String
  index : String → Option String
  worktree : String → Option String
  history : List String

/-- Modelled from the spec: the Status Scanner contract (§4.1) — the per-path
`RawStatusRecord` "reflecting both the index (staged) and working-tree state
relative to the last commit", which "must reflect untracked files"; a path
present nowhere yields no record. -/
def statusOf (st : GitState) (p : String) : Option FileStatus :=
  match st.head p, st.index p, st.worktree p with
  | none, none, none => none
  | none, none, some _ => some ⟨.untracked, .untracked⟩
  | none, some _, none => some ⟨.added, .deleted⟩
  | none, some b, some c =>
    some ⟨.added, if b = c then .unmodified else .modified⟩
  | some _, none, none => some ⟨.deleted, .unmodified⟩
  | some _, none, some _ => some ⟨.deleted, .untracked⟩
  | some a, some b, none =>
    some ⟨if a = b then .unmodified else .modified, .deleted⟩
  | some a, some b, some c =>
    some ⟨if a = b then .unmodified else .modified,
          if b = c then .unmodified else .modified⟩

/-- Modelled from the spec: `worktree.Status()` — the full status mapping,
one record per path that has one. -/
def wtStatus (st : GitState) : Status :=
  st.paths.filterMap fun p => (statusOf st p).map fun fs => (p, fs)

/-- Modelled from the spec: `worktree.Add` — "stage the path's current
on-disk content for the index; fails with StageError on I/O failure"
(here: the file is absent from the working tree). -/
def wtAdd (st : GitState) (p : String) : Except String GitState :=
  match st.worktree p with
  | none => .error "entry not found"
  | some c => .ok { st with index := fun q => if q = p then some c else st.index q }

/-- Modelled from the spec: `worktree.Remove` — remove the file from the
working tree and stage the deletion; "fails with StageError if the path
cannot be removed (e.g., already absent)". -/
def wtRemove (st : GitState) (p : String) : Except String GitState :=
  if st.index p = none ∧ st.worktree p = none then .error "entry not found"
  else
    .ok { st with
      index := fun q => if q = p then none else st.index q,
      worktree := fun q => if q = p then none else st.worktree q }

/-- Modelled from the spec: `worktree.Commit` — appends one commit recording
the whole index ("exactly one new commit is appended to the current branch
history"); "fails with CommitError if the commit operation itself fails
(e.g., nothing staged)".  Returns the new commit identifier. -/
def wtCommit (st : GitState) (msg : String) : Except String (String × GitState) :=
  if st.paths.all fun q => decide (st.index q = st.head q) then
    .error "cannot create empty commit: clean working tree"
  else
    .ok ("c" ++ toString st.history.length,
      { st with head := st.index, history := msg :: st.history })

/-- `commitStackChange` against the modelled backend: stage the delta
(`Remove` for a deleted change, `Add` otherwise), then commit with the
derived message, wrapping errors as the Go code does. -/
def commitStackChange (st : GitState) (change : Change) :
    Except String (String × GitState) :=
  let staged : Except String GitState :=
    if change.Kind = Deleted then
      match wtRemove st change.FilePath with
      | .error e => .error ("failed to remove file: " ++ e)
      | .ok s => .ok s
    else
      match wtAdd st change.FilePath with
      | .error e => .error ("failed to add file: " ++ e)
      | .ok s => .ok s
  match staged with
  | .error e => .error e
  | .ok st1 =>
    match wtCommit st1 (commitMsg change) with
    | .error e => .error ("failed to commit: " ++ e)
    | .ok hs => .ok hs

/-- The go-git backend operations, instantiated with the modelled state:
worktree acquisition and status reading succeed, commits follow
`commitStackChange`, and pushing leaves the repository state unchanged. -/
def gitOps : RepoOps GitState where
  worktreeOk := fun _ => .ok ()
  status := fun st => .ok (wtStatus st)
  commitChange := commitStackChange
  push := fun st => .ok st

end Watch

/-! ### The commit-only variant (`src/main.go`) -/

namespace MainGo

/-- `getStackName` of `src/main.go` (textually identical to the other
variant's). -/
def getStackName (filePath : String) : String :=
  let dir := goDir filePath
  let stackName := goBase dir
  if stackName = "." ∨ stackName = "/" then "root" else stackName

/-- Loop body of `findComposeChanges` in `src/main.go`. -/
def composeChangeFor (filePath : String) (fileStatus : FileStatus) :
    Option Change :=
  let fileName := goBase filePath
  if fileName ≠ "compose.yml" ∧ fileName ≠ "compose.yaml" then none
  else
    let stackName := getStackName filePath
    if fileStatus.Staging = .added ∨ fileStatus.Worktree = .untracked then
      some ⟨stackName, filePath, Created⟩
    else if fileStatus.Staging = .deleted ∨ fileStatus.Worktree = .deleted then
      some ⟨stackName, filePath, Deleted⟩
    else if fileStatus.Staging = .modified ∨ fileStatus.Worktree = .modified then
      some ⟨stackName, filePath, Updated⟩
    else none

/-- `findComposeChanges` of `src/main.go`. -/
def findComposeChanges (status : Status) : List Change :=
  status.filterMap fun entry => composeChangeFor entry.1 entry.2

/-- `fmt.Sprintf("%s %s", change.ChangeType, change.StackName)` in
`src/main.go`'s `commitStackChange`. -/
def commitMsg (change : Change) : String :=
  change.Kind ++ " " ++ change.StackName

end MainGo

/-! ### Concrete scenarios used to instantiate the general theorems -/

namespace Watch

/-- A repository whose only path is a single untracked compose file. -/
def singleUntrackedState : GitState :=
  ⟨["komodo/compose.yml"], fun _ => none, fun _ => none,
    fun p => if p = "komodo/compose.yml" then some "x" else none, []⟩

/-- A status mapping with three untracked compose stacks `a`, `b`, `c`. -/
def threeStacksStatus : Status :=
  [("a/compose.yml", ⟨.unmodified, .untracked⟩),
   ("b/compose.yml", ⟨.unmodified, .untracked⟩),
   ("c/compose.yml", ⟨.unmodified, .untracked⟩)]

/-- Backend oracle for the partial-failure scenario: scanning yields the
three stacks above, committing stack `b` fails, every other commit succeeds
with hash `aaaaaaa`. -/
def threeStacksOps : RepoOps Unit where
  worktreeOk := fun _ => .ok ()
  status := fun _ => .ok threeStacksStatus
  commitChange := fun _ c =>
    if c.StackName = "b" then .error "boom" else .ok ("aaaaaaa", ())
  push := fun st => .ok st

/-- Backend oracle where scanning yields one compose change but every commit
attempt fails. -/
def allCommitsFailOps : RepoOps Unit where
  worktreeOk := fun _ => .ok ()
  status := fun _ => .ok [("a/compose.yml", ⟨.unmodified, .untracked⟩)]
  commitChange := fun _ _ => .error "boom"
  push := fun st => .ok st

end Watch

/-! ## Helper lemmas -/

namespace Watch

theorem wtAdd_ok {st s : GitState} {p : String} (h : wtAdd st p = .ok s) :
    ∃ c, st.worktree p = some c ∧
      s = { st with index := fun q => if q = p then some c else st.index q } := by
  unfold wtAdd at h
  rcases hw : st.worktree p with _ | c <;> rw [hw] at h
  · cases h
  · exact ⟨c, rfl, by cases h; rfl⟩

theorem wtRemove_ok {st s : GitState} {p : String} (h : wtRemove st p = .ok s) :
    s = { st with
      index := fun q => if q = p then none else st.index q,
      worktree := fun q => if q = p then none else st.worktree q } := by
  unfold wtRemove at h
  split at h
  · cases h
  · cases h; rfl

theorem wtCommit_ok {st st1 : GitState} {msg hash : String}
    (h : wtCommit st msg = .ok (hash, st1)) :
    st1 = { st with head := st.index, history := msg :: st.history } := by
  unfold wtCommit at h
  split at h
  · cases h
  · cases h; rfl

theorem commitStackChange_parts {st st1 : GitState} {change : Change}
    {hash : String} (hE : commitStackChange st change = .ok (hash, st1)) :
    ∃ st2, ((change.Kind = Deleted ∧ wtRemove st change.FilePath = .ok st2) ∨
            (change.Kind ≠ Deleted ∧ wtAdd st change.FilePath = .ok st2)) ∧
      wtCommit st2 (commitMsg change) = .ok (hash, st1) := by
  unfold commitStackChange at hE
  by_cases hk : change.Kind = Deleted
  · simp only [hk, if_pos] at hE
    rcases hR : wtRemove st change.FilePath with e | st2 <;> simp only [hR] at hE
    · cases hE
    · rcases hC : wtCommit st2 (commitMsg change) with e | hs <;>
        simp only [hC] at hE
      · cases hE
      · cases hE
        exact ⟨st2, .inl ⟨hk, rfl⟩, hC⟩
  · simp only [hk, if_neg, ite_false] at hE
    rcases hR : wtAdd st change.FilePath with e | st2 <;> simp only [hR] at hE
    · cases hE
    · rcases hC : wtCommit st2 (commitMsg change) with e | hs <;>
        simp only [hC] at hE
      · cases hE
      · cases hE
        exact ⟨st2, .inr ⟨hk, rfl⟩, hC⟩

theorem commitStackChange_history {st st1 : GitState} {change : Change}
    {hash : String} (hE : commitStackChange st change = .ok (hash, st1)) :
    st1.history = commitMsg change :: st.history := by
  rcases commitStackChange_parts hE with ⟨st2, hstage, hC⟩
  have h2 : st2.history = st.history := by
    rcases hstage with ⟨_, hR⟩ | ⟨_, hA⟩
    · rw [wtRemove_ok hR]
    · rcases wtAdd_ok hA with ⟨c, _, hs⟩
      rw [hs]
  rw [wtCommit_ok hC]
  simpa using h2

theorem composeChangeFor_filePath {p : String} {fs : FileStatus} {c : Change}
    (h : composeChangeFor p fs = some c) : c.FilePath = p := by
  simp only [composeChangeFor] at h
  split_ifs at h
  all_goals first
    | exact Option.noConfusion h
    | (injection h with h5; subst h5; rfl)

theorem filter_findComposeChanges_eq_nil {l : Status} {fp : String}
    (h : ∀ pr ∈ l, pr.1 ≠ fp ∨ composeChangeFor pr.1 pr.2 = none) :
    ((findComposeChanges l).filter fun c => c.FilePath == fp) = [] := by
  induction l with
  | nil => rfl
  | cons hd tl ih =>
    have hhd := h hd (List.mem_cons_self _ _)
    have htl := fun pr hm => h pr (List.mem_cons_of_mem _ hm)
    rcases hE : composeChangeFor hd.1 hd.2 with _ | c
    · simpa [findComposeChanges, List.filterMap_cons, hE] using ih htl
    · have hne : (c.FilePath == fp) = false := by
        rcases hhd with hq | hnone
        · rw [composeChangeFor_filePath hE]
          exact beq_eq_false_iff_ne.mpr hq
        · rw [hE] at hnone
          cases hnone
      simpa [findComposeChanges, List.filterMap_cons, hE, List.filter_cons, hne]
        using ih htl

theorem commitLoopGo_facts (σ : Type) (ops : RepoOps σ) (st : σ)
    (cs : List Change) :
    (commitLoopGo ops st cs).logs.length = cs.length ∧
    (commitLoopGo ops st cs).commitCount = (commitLoopGo ops st cs).succeeded.length ∧
    (commitLoopGo ops st cs).succeeded.Sublist cs ∧
    ∀ c ∈ cs, c ∈ (commitLoopGo ops st cs).succeeded ∨
      ∃ e, ("Failed to commit " ++ c.StackName ++ ": " ++ e) ∈
        (commitLoopGo ops st cs).logs := by
  induction cs generalizing st with
  | nil => exact ⟨rfl, rfl, List.Sublist.refl _, by simp⟩
  | cons c rest ih =>
    rcases hE : ops.commitChange st c with e | hs
    · have ihr := ih st
      simp only [commitLoopGo, hE]
      refine ⟨by simp [ihr.1], ihr.2.1, ihr.2.2.1.cons _, ?_⟩
      intro c' hc'
      rcases List.mem_cons.1 hc' with rfl | hm
      · exact .inr ⟨e, by simp⟩
      · rcases ihr.2.2.2 c' hm with hsucc | ⟨e', he'⟩
        · exact .inl hsucc
        · exact .inr ⟨e', by simp [he']⟩
    · have ihr := ih hs.2
      simp only [commitLoopGo, hE]
      refine ⟨by simp [ihr.1], by simp [ihr.2.1], ihr.2.2.1.cons₂ _, ?_⟩
      intro c' hc'
      rcases List.mem_cons.1 hc' with rfl | hm
      · exact .inl (List.mem_cons_self _ _)
      · rcases ihr.2.2.2 c' hm with hsucc | ⟨e', he'⟩
        · exact .inl (List.mem_cons_of_mem _ hsucc)
        · exact .inr ⟨e', by simp [he']⟩

end Watch

/-! ## Claim theorems -/

/-- C3: for every file path the derived stack name is the final component of
the path's parent directory (Go `Base (Dir path)`), with the sentinel
`"root"` when that component is `"."` or `"/"`; concretely, an untracked
`a/b/compose.yaml` classifies to `Change{b, a/b/compose.yaml, created}` and a
staged-deleted root-level `compose.yml` classifies to
`Change{root, compose.yml, deleted}`. -/
theorem C3_stack_name_derivation :
    (∀ fp : String, Watch.getStackName fp =
      if goBase (goDir fp) = "." ∨ goBase (goDir fp) = "/" then "root"
      else goBase (goDir fp)) ∧
    Watch.findComposeChanges [("a/b/compose.yaml", ⟨.unmodified, .untracked⟩)] =
      [⟨"b", "a/b/compose.yaml", Created⟩] ∧
    Watch.findComposeChanges [("compose.yml", ⟨.deleted, .unmodified⟩)] =
      [⟨"root", "compose.yml", Deleted⟩] :=
  ⟨fun _ => rfl, by decide, by decide⟩

/-- C4: the commit message is exactly the lowercase kind name, one space and
the stack name, with nothing appended; every commit recorded by the commit
engine carries exactly this message, and `Updated`/`komodo` gives the literal
`"updated komodo"`. -/
theorem C4_commit_message_format :
    (∀ c : Change, Watch.commitMsg c = c.Kind ++ " " ++ c.StackName) ∧
    (∀ sn fp : String,
      Watch.commitMsg ⟨sn, fp, Created⟩ = "created " ++ sn ∧
      Watch.commitMsg ⟨sn, fp, Updated⟩ = "updated " ++ sn ∧
      Watch.commitMsg ⟨sn, fp, Deleted⟩ = "deleted " ++ sn) ∧
    Watch.commitMsg ⟨"komodo", "stacks/komodo/compose.yml", Updated⟩ = "updated komodo" ∧
    (∀ (st : Watch.GitState) (change : Change),
      match Watch.commitStackChange st change with
      | .ok (_, st1) => st1.history.head? = some (Watch.commitMsg change)
      | .error _ => True) := by
  refine ⟨fun c => rfl, ?_, rfl, ?_⟩
  · intro sn fp
    rcases sn with ⟨l⟩
    exact ⟨rfl, rfl, rfl⟩
  · intro st change
    rcases hE : Watch.commitStackChange st change with e | ⟨hash, st1⟩
    · trivial
    · simp [Watch.commitStackChange_history hE]

/-- C7: a push whose outcome is go-git's "already up to date" is logged as a
success and `pushToRemote` returns no error, while a missing remote gets its
own distinct report line and error value (different from the wrapped
transport/auth failures) and is still returned as an error. -/
theorem C7_push_outcome_classification :
    (Watch.pushToRemote (.ok ()) .alreadyUpToDate).2 = none ∧
    "✓ Already up to date" ∈ (Watch.pushToRemote (.ok ()) .alreadyUpToDate).1 ∧
    (Watch.pushToRemote (.ok ()) .remoteNotFound).2 = some .remoteNotFound ∧
    "x No remote available, please add one!" ∈
      (Watch.pushToRemote (.ok ()) .remoteNotFound).1 ∧
    (∀ e, (Watch.pushToRemote (.ok ()) (.failure e)).2 =
      some (.pushFailed ("push failed: " ++ e))) ∧
    (∀ e, Watch.PushError.remoteNotFound ≠ Watch.PushError.pushFailed e) ∧
    (∀ e, Watch.PushError.remoteNotFound ≠ Watch.PushError.authError e) :=
  ⟨rfl, by decide, rfl, by decide, fun _ => rfl,
    fun _ h => Watch.PushError.noConfusion h,
    fun _ h => Watch.PushError.noConfusion h⟩

/-- C10: the change classifiers of the two program variants are extensionally
equal — on every status mapping they produce the same list of Changes, hence
the same multiset. -/
theorem C10_variants_classify_identically (status : Status) :
    MainGo.findComposeChanges status = Watch.findComposeChanges status ∧
    (MainGo.findComposeChanges status : Multiset Change) =
      (Watch.findComposeChanges status : Multiset Change) :=
  ⟨rfl, rfl⟩

/-- C1: for a configuration-file path present in the status mapping (keys
distinct, as for a Go map), the classifier emits exactly one Change for that
path, whose kind is the first matching rule of the fixed precedence —
staged-added/untracked gives Created, else staged/worktree-deleted gives
Deleted, else staged/worktree-modified gives Updated — and no Change at all
when no rule matches. -/
theorem C1_classifier_kind_precedence (status : Status) (fp : String)
    (fs : FileStatus) (hnd : (status.map Prod.fst).Nodup)
    (hmem : (fp, fs) ∈ status)
    (hcf : goBase fp = "compose.yml" ∨ goBase fp = "compose.yaml") :
    ((Watch.findComposeChanges status).filter fun c => c.FilePath == fp) =
      (if fs.Staging = .added ∨ fs.Worktree = .untracked then
        [⟨Watch.getStackName fp, fp, Created⟩]
      else if fs.Staging = .deleted ∨ fs.Worktree = .deleted then
        [⟨Watch.getStackName fp, fp, Deleted⟩]
      else if fs.Staging = .modified ∨ fs.Worktree = .modified then
        [⟨Watch.getStackName fp, fp, Updated⟩]
      else []) := by
  induction status with
  | nil => cases hmem
  | cons hd tl ih =>
    rcases List.mem_cons.1 hmem with heq | hmem2
    · obtain rfl := heq.symm
      have hnotin : fp ∉ tl.map Prod.fst := by
        rw [List.map_cons] at hnd
        simpa using (List.nodup_cons.1 hnd).1
      have htl_nil :
          ((Watch.findComposeChanges tl).filter fun c => c.FilePath == fp) = [] := by
        refine Watch.filter_findComposeChanges_eq_nil fun pr hm => .inl fun hq => ?_
        exact hnotin (hq ▸ List.mem_map_of_mem Prod.fst hm)
      by_cases h1 : fs.Staging = .added ∨ fs.Worktree = .untracked
      · have hE : Watch.composeChangeFor fp fs =
            some ⟨Watch.getStackName fp, fp, Created⟩ := by
          unfold Watch.composeChangeFor
          rcases hcf with hc | hc <;> simp [hc, h1]
        simp [Watch.findComposeChanges, List.filterMap_cons, hE, List.filter_cons,
          htl_nil, h1, Watch.findComposeChanges] at htl_nil ⊢
        exact htl_nil
      · by_cases h2 : fs.Staging = .deleted ∨ fs.Worktree = .deleted
        · have hE : Watch.composeChangeFor fp fs =
              some ⟨Watch.getStackName fp, fp, Deleted⟩ := by
            unfold Watch.composeChangeFor
            rcases hcf with hc | hc <;> simp [hc, h1, h2]
          simp [Watch.findComposeChanges, List.filterMap_cons, hE, List.filter_cons,
            h1, h2] at htl_nil ⊢
          exact htl_nil
        · by_cases h3 : fs.Staging = .modified ∨ fs.Worktree = .modified
          · have hE : Watch.composeChangeFor fp fs =
                some ⟨Watch.getStackName fp, fp, Updated⟩ := by
              unfold Watch.composeChangeFor
              rcases hcf with hc | hc <;> simp [hc, h1, h2, h3]
            simp [Watch.findComposeChanges, List.filterMap_cons, hE, List.filter_cons,
              h1, h2, h3] at htl_nil ⊢
            exact htl_nil
          · have hE : Watch.composeChangeFor fp fs = none := by
              unfold Watch.composeChangeFor
              rcases hcf with hc | hc <;> simp [hc, h1, h2, h3]
            simp [Watch.findComposeChanges, List.filterMap_cons, hE, h1, h2, h3]
              at htl_nil ⊢
            exact htl_nil
    · rw [List.map_cons] at hnd
      have hnd2 : (tl.map Prod.fst).Nodup := (List.nodup_cons.1 hnd).2
      have hne : hd.1 ≠ fp := by
        intro hq
        exact (List.nodup_cons.1 hnd).1 (hq ▸ List.mem_map_of_mem Prod.fst hmem2)
      rcases hE : Watch.composeChangeFor hd.1 hd.2 with _ | c
      · simpa [Watch.findComposeChanges, List.filterMap_cons, hE] using ih hnd2 hmem2
      · have hfalse : (c.FilePath == fp) = false := by
          rw [Watch.composeChangeFor_filePath hE]
          exact beq_eq_false_iff_ne.mpr hne
        simpa [Watch.findComposeChanges, List.filterMap_cons, hE, List.filter_cons,
          hfalse] using ih hnd2 hmem2

theorem C1_classifier_kind_precedence_witness :
    (([("x/compose.yml", (⟨.added, .deleted⟩ : FileStatus)),
       ("y/compose.yml", (⟨.modified, .deleted⟩ : FileStatus))].map Prod.fst).Nodup ∧
     ("x/compose.yml", (⟨.added, .deleted⟩ : FileStatus)) ∈
       [("x/compose.yml", (⟨.added, .deleted⟩ : FileStatus)),
        ("y/compose.yml", (⟨.modified, .deleted⟩ : FileStatus))] ∧
     (goBase "x/compose.yml" = "compose.yml" ∨
       goBase "x/compose.yml" = "compose.yaml")) ∧
    ((Watch.findComposeChanges
        [("x/compose.yml", (⟨.added, .deleted⟩ : FileStatus)),
         ("y/compose.yml", (⟨.modified, .deleted⟩ : FileStatus))]).filter
      fun c => c.FilePath == "x/compose.yml") =
      (if (⟨.added, .deleted⟩ : FileStatus).Staging = .added ∨
          (⟨.added, .deleted⟩ : FileStatus).Worktree = .untracked then
        [⟨Watch.getStackName "x/compose.yml", "x/compose.yml", Created⟩]
      else if (⟨.added, .deleted⟩ : FileStatus).Staging = .deleted ∨
          (⟨.added, .deleted⟩ : FileStatus).Worktree = .deleted then
        [⟨Watch.getStackName "x/compose.yml", "x/compose.yml", Deleted⟩]
      else if (⟨.added, .deleted⟩ : FileStatus).Staging = .modified ∨
          (⟨.added, .deleted⟩ : FileStatus).Worktree = .modified then
        [⟨Watch.getStackName "x/compose.yml", "x/compose.yml", Updated⟩]
      else []) :=
  ⟨⟨by decide, by decide, by decide⟩,
    C1_classifier_kind_precedence _ _ _ (by decide) (by decide) (by decide)⟩

/-- C2: a path whose final component is not literally `compose.yml` or
`compose.yaml` contributes no Change whatever its status flags, while
matching paths are accepted at any directory depth. -/
theorem C2_filename_allowlist (status : Status) (fp : String)
    (h1 : goBase fp ≠ "compose.yml") (h2 : goBase fp ≠ "compose.yaml") :
    ((Watch.findComposeChanges status).filter fun c => c.FilePath == fp) = [] ∧
    Watch.composeChangeFor "a/b/c/d/e/compose.yaml" ⟨.unmodified, .untracked⟩ =
      some ⟨"e", "a/b/c/d/e/compose.yaml", Created⟩ := by
  constructor
  · refine Watch.filter_findComposeChanges_eq_nil fun pr hm => ?_
    by_cases hq : pr.1 = fp
    · refine .inr ?_
      unfold Watch.composeChangeFor
      simp [hq, h1, h2]
    · exact .inl hq
  · decide

theorem C2_filename_allowlist_witness :
    (goBase "a/b/app.yml" ≠ "compose.yml" ∧ goBase "a/b/app.yml" ≠ "compose.yaml") ∧
    (((Watch.findComposeChanges
          [("a/b/app.yml", (⟨.modified, .modified⟩ : FileStatus)),
           ("compose.json", (⟨.unmodified, .untracked⟩ : FileStatus))]).filter
        fun c => c.FilePath == "a/b/app.yml") = [] ∧
      Watch.composeChangeFor "a/b/c/d/e/compose.yaml" ⟨.unmodified, .untracked⟩ =
        some ⟨"e", "a/b/c/d/e/compose.yaml", Created⟩) :=
  ⟨⟨by decide, by decide⟩, C2_filename_allowlist _ _ (by decide) (by decide)⟩

/-- C5: the push gateway is invoked exactly when the push flag is enabled and
at least one commit succeeded in the cycle, and a cycle that classified
changes but created no commit reports why the push is skipped. -/
theorem C5_push_gating (σ : Type) (ops : Watch.RepoOps σ) (pushFlag : Bool)
    (st : σ) :
    ((Watch.checkAndCommit ops pushFlag st).pushInvoked = true ↔
      pushFlag = true ∧ 0 < (Watch.checkAndCommit ops pushFlag st).commitCount) ∧
    ((Watch.checkAndCommit ops pushFlag st).changes ≠ [] →
      (Watch.checkAndCommit ops pushFlag st).commitCount = 0 →
      "No commits were created, skipping push." ∈
        (Watch.checkAndCommit ops pushFlag st).logs) := by
  unfold Watch.checkAndCommit
  rcases hW : ops.worktreeOk st with e | u
  · simp
  · rcases hS : ops.status st with e | status
    · simp
    · by_cases hc : Watch.findComposeChanges status = []
      · simp [hc]
      · simp only [hc, if_neg, ite_false, if_false]
        by_cases hp : pushFlag ∧
            (Watch.commitLoopGo ops st (Watch.findComposeChanges status)).commitCount > 0
        · rcases hP : ops.push
              (Watch.commitLoopGo ops st (Watch.findComposeChanges status)).state
            with e | st2
          · simp only [hp, if_true, if_pos]
            refine ⟨by simpa using hp.2, fun _ h0 => ?_⟩
            exact absurd h0 (Nat.pos_iff_ne_zero.1 hp.2)
          · simp only [hp, if_true, if_pos]
            refine ⟨by simpa using hp.2, fun _ h0 => ?_⟩
            exact absurd h0 (Nat.pos_iff_ne_zero.1 hp.2)
        · simp only [hp, if_false, ite_false]
          by_cases h0 :
              (Watch.commitLoopGo ops st (Watch.findComposeChanges status)).commitCount = 0
          · simp only [h0, if_true, if_pos]
            refine ⟨by simp [h0, hp], fun _ _ => ?_⟩
            simp
          · simp only [h0, if_false, ite_false]
            have hpf : ¬ (pushFlag = true) := fun hb =>
              hp ⟨by simpa using hb, Nat.pos_of_ne_zero h0⟩
            exact ⟨by simp [hpf], fun _ hz => hz.elim⟩

theorem C5_push_gating_witness :
    ((Watch.checkAndCommit Watch.allCommitsFailOps true ()).changes ≠ [] ∧
     (Watch.checkAndCommit Watch.allCommitsFailOps true ()).commitCount = 0) ∧
    "No commits were created, skipping push." ∈
      (Watch.checkAndCommit Watch.allCommitsFailOps true ()).logs :=
  ⟨⟨by decide, by decide⟩,
    (C5_push_gating Unit Watch.allCommitsFailOps true ()).2 (by decide) (by decide)⟩

/-- C6 counterexample: in a cycle with three classified Changes where only
the second one fails to commit, the controller does track 2 successes
internally, but its terminal summary line is the bare `"Done.\n"` and no
reported line even contains the character `2`, so no line of the cycle
report states "2 successes"; the reporting part of the claim is false. -/
theorem C6_counterexample :
    (Watch.checkAndCommit Watch.threeStacksOps false ()).changes.length = 3 ∧
    (Watch.checkAndCommit Watch.threeStacksOps false ()).commitCount = 2 ∧
    (Watch.checkAndCommit Watch.threeStacksOps false ()).logs.getLast? =
      some "Done.\n" ∧
    ((Watch.checkAndCommit Watch.threeStacksOps false ()).logs.all
      fun l => !(l.toList.contains '2')) = true := by decide

/-- C6 (amended): a commit failure is reported and only that Change is
skipped; every Change is attempted exactly once (one report line each, no
abort on first failure); the count of successful commits is tracked and
equals the number of successfully committed Changes; in the concrete
three-Change scenario where only the second fails, the first and third still
commit and the tracked count is 2 — but the count is used only for push
gating and is not itself reported in the cycle summary. -/
theorem C6_partial_failure_amended (σ : Type) (ops : Watch.RepoOps σ) (st : σ)
    (cs : List Change) :
    ((Watch.commitLoopGo ops st cs).logs.length = cs.length ∧
     (Watch.commitLoopGo ops st cs).commitCount =
       (Watch.commitLoopGo ops st cs).succeeded.length ∧
     (Watch.commitLoopGo ops st cs).succeeded.Sublist cs ∧
     ∀ c ∈ cs, c ∈ (Watch.commitLoopGo ops st cs).succeeded ∨
       ∃ e, ("Failed to commit " ++ c.StackName ++ ": " ++ e) ∈
         (Watch.commitLoopGo ops st cs).logs) ∧
    (Watch.checkAndCommit Watch.threeStacksOps false ()).commitCount = 2 ∧
    (Watch.checkAndCommit Watch.threeStacksOps false ()).succeeded =
      [⟨"a", "a/compose.yml", Created⟩, ⟨"c", "c/compose.yml", Created⟩] ∧
    "Failed to commit b: boom" ∈
      (Watch.checkAndCommit Watch.threeStacksOps false ()).logs :=
  ⟨Watch.commitLoopGo_facts σ ops st cs, by decide, by decide, by decide⟩

theorem C6_partial_failure_amended_witness :
    ((⟨"b", "b/compose.yml", Created⟩ : Change) ∈
      Watch.findComposeChanges Watch.threeStacksStatus) ∧
    ((⟨"b", "b/compose.yml", Created⟩ : Change) ∈
        (Watch.commitLoopGo Watch.threeStacksOps ()
          (Watch.findComposeChanges Watch.threeStacksStatus)).succeeded ∨
      ∃ e, ("Failed to commit " ++
          (⟨"b", "b/compose.yml", Created⟩ : Change).StackName ++ ": " ++ e) ∈
        (Watch.commitLoopGo Watch.threeStacksOps ()
          (Watch.findComposeChanges Watch.threeStacksStatus)).logs) :=
  ⟨by decide,
    (C6_partial_failure_amended Unit Watch.threeStacksOps ()
      (Watch.findComposeChanges Watch.threeStacksStatus)).1.2.2.2 _ (by decide)⟩

/-- C9: every invocation of the cycle controller ends its report with a
line describing the cycle's outcome, on every exit path: the worktree or
status failure message when scanning fails, the "no changes" line when
classification is empty, and the `"Done.\n"` summary after
committing/pushing. -/
theorem C9_terminal_report (σ : Type) (ops : Watch.RepoOps σ) (pushFlag : Bool)
    (st : σ) :
    ∃ last, (Watch.checkAndCommit ops pushFlag st).logs.getLast? = some last ∧
      (last = "Done.\n" ∨ last = "No compose file changes detected." ∨
       (∃ e, last = "Failed to get worktree: " ++ e) ∨
       (∃ e, last = "Failed to get status: " ++ e)) := by
  unfold Watch.checkAndCommit
  rcases hW : ops.worktreeOk st with e | u
  · exact ⟨_, by simp, .inr (.inr (.inl ⟨e, rfl⟩))⟩
  · rcases hS : ops.status st with e | status
    · exact ⟨_, by simp, .inr (.inr (.inr ⟨e, rfl⟩))⟩
    · by_cases hc : Watch.findComposeChanges status = []
      · exact ⟨_, by simp [hc], .inr (.inl rfl)⟩
      · simp only [hc, if_neg, ite_false, if_false]
        by_cases hp : pushFlag ∧
            (Watch.commitLoopGo ops st (Watch.findComposeChanges status)).commitCount > 0
        · rcases hP : ops.push
              (Watch.commitLoopGo ops st (Watch.findComposeChanges status)).state
            with e | st2
          · exact ⟨"Done.\n", by simp [hp, List.getLast?_cons], .inl rfl⟩
          · exact ⟨"Done.\n", by simp [hp, List.getLast?_cons], .inl rfl⟩
        · by_cases h0 :
              (Watch.commitLoopGo ops st (Watch.findComposeChanges status)).commitCount = 0
          · exact ⟨"Done.\n", by simp [hp, h0, List.getLast?_cons], .inl rfl⟩
          · exact ⟨"Done.\n", by simp [hp, h0, List.getLast?_cons], .inl rfl⟩

/-! ## Idempotence machinery for the modelled git backend -/

namespace Watch

theorem commitStackChange_ok_facts {st st1 : GitState} {change : Change}
    {hash : String} (hE : commitStackChange st change = .ok (hash, st1)) :
    st1.paths = st.paths ∧
    st1.head = st1.index ∧
    st1.index change.FilePath = st1.worktree change.FilePath ∧
    ∀ q, q ≠ change.FilePath →
      st1.index q = st.index q ∧ st1.worktree q = st.worktree q := by
  rcases commitStackChange_parts hE with ⟨st2, hstage, hC⟩
  have h1 := wtCommit_ok hC
  subst h1
  rcases hstage with ⟨_, hR⟩ | ⟨_, hA⟩
  · have h2 := wtRemove_ok hR
    subst h2
    refine ⟨rfl, rfl, by simp, fun q hq => by simp [hq]⟩
  · rcases wtAdd_ok hA with ⟨c, hw, h2⟩
    subst h2
    refine ⟨rfl, rfl, by simp [hw], fun q hq => by simp [hq]⟩

theorem commitLoopGo_all_ok_facts {cs : List Change} :
    ∀ st : GitState, (commitLoopGo gitOps st cs).succeeded = cs → cs ≠ [] →
    (commitLoopGo gitOps st cs).state.paths = st.paths ∧
    (commitLoopGo gitOps st cs).state.head = (commitLoopGo gitOps st cs).state.index ∧
    ∀ q, (commitLoopGo gitOps st cs).state.index q =
          (commitLoopGo gitOps st cs).state.worktree q ∨
      ((commitLoopGo gitOps st cs).state.index q = st.index q ∧
       (commitLoopGo gitOps st cs).state.worktree q = st.worktree q ∧
       q ∉ cs.map Change.FilePath) := by
  induction cs with
  | nil => exact fun st _ hne => absurd rfl hne
  | cons c rest ih =>
    intro st hok hne
    rcases hE : gitOps.commitChange st c with e | hs
    · exfalso
      have hsub := (commitLoopGo_facts GitState gitOps st rest).2.2.1
      have heq : (commitLoopGo gitOps st (c :: rest)).succeeded =
          (commitLoopGo gitOps st rest).succeeded := by
        simp [commitLoopGo, hE]
      rw [hok] at heq
      have hlen := hsub.length_le
      rw [← heq] at hlen
      simp at hlen
    · obtain ⟨hash, st1⟩ := hs
      have hstep : commitStackChange st c = .ok (hash, st1) := hE
      obtain ⟨hpaths, hhi, heqp, hpre⟩ := commitStackChange_ok_facts hstep
      simp only [commitLoopGo, hE] at hok ⊢
      by_cases hrest : rest = []
      · subst hrest
        simp only [commitLoopGo]
        refine ⟨hpaths, hhi, fun q => ?_⟩
        by_cases hq : q = c.FilePath
        · exact .inl (hq ▸ heqp)
        · exact .inr ⟨(hpre q hq).1, (hpre q hq).2, by simp [hq]⟩
      · have hok2 : (commitLoopGo gitOps st1 rest).succeeded = rest := by
          simpa using hok
        obtain ⟨ihp, ihh, ihq⟩ := ih st1 hok2 hrest
        refine ⟨ihp.trans hpaths, ihh, fun q => ?_⟩
        rcases ihq q with hL | ⟨hi2, hw2, hnm⟩
        · exact .inl hL
        · by_cases hq : q = c.FilePath
          · subst hq
            exact .inl (by rw [hi2, hw2]; exact heqp)
          · exact .inr ⟨hi2.trans (hpre q hq).1, hw2.trans (hpre q hq).2,
              by simp [hq, hnm]⟩

theorem mem_wtStatus_elim {st : GitState} {p : String} {fs : FileStatus}
    (h : (p, fs) ∈ wtStatus st) : p ∈ st.paths ∧ statusOf st p = some fs := by
  rcases List.mem_filterMap.1 h with ⟨q, hq, hmap⟩
  rcases hS : statusOf st q with _ | fs2
  · rw [hS] at hmap
    cases hmap
  · rw [hS] at hmap
    have h1 : q = p ∧ fs2 = fs := by simpa using hmap
    obtain ⟨rfl, rfl⟩ := h1
    exact ⟨hq, hS⟩

theorem mem_wtStatus {st : GitState} {p : String} {fs : FileStatus}
    (hp : p ∈ st.paths) (hS : statusOf st p = some fs) : (p, fs) ∈ wtStatus st :=
  List.mem_filterMap.2 ⟨p, hp, by rw [hS]; rfl⟩

theorem unclassified_of_not_mem_fps {st : GitState} {p : String}
    (hp : p ∈ st.paths)
    (hnm : p ∉ (findComposeChanges (wtStatus st)).map Change.FilePath) :
    ∀ fs, statusOf st p = some fs → composeChangeFor p fs = none := by
  intro fs hS
  rcases hk : composeChangeFor p fs with _ | c
  · rfl
  · exfalso
    have hcmem : c ∈ findComposeChanges (wtStatus st) :=
      List.mem_filterMap.2 ⟨(p, fs), mem_wtStatus hp hS, hk⟩
    have hfp := composeChangeFor_filePath hk
    exact hnm (hfp ▸ List.mem_map_of_mem Change.FilePath hcmem)

theorem unclassified_state_eq {st : GitState} {p : String}
    (hc : goBase p = "compose.yml" ∨ goBase p = "compose.yaml")
    (h : ∀ fs, statusOf st p = some fs → composeChangeFor p fs = none) :
    st.head p = st.index p ∧ st.index p = st.worktree p := by
  have hguard : ¬ (goBase p ≠ "compose.yml" ∧ goBase p ≠ "compose.yaml") := by
    rcases hc with hc | hc <;> simp [hc]
  have contra : ∀ fs : FileStatus, statusOf st p = some fs →
      (fs.Staging = .added ∨ fs.Worktree = .untracked) ∨
      (fs.Staging = .deleted ∨ fs.Worktree = .deleted) ∨
      (fs.Staging = .modified ∨ fs.Worktree = .modified) → False := by
    intro fs hS hcls
    have hnone := h fs hS
    unfold composeChangeFor at hnone
    rw [if_neg hguard] at hnone
    rcases hcls with h1 | h2 | h3
    · rw [if_pos h1] at hnone
      cases hnone
    · by_cases h1 : fs.Staging = .added ∨ fs.Worktree = .untracked
      · rw [if_pos h1] at hnone
        cases hnone
      · rw [if_neg h1, if_pos h2] at hnone
        cases hnone
    · by_cases h1 : fs.Staging = .added ∨ fs.Worktree = .untracked
      · rw [if_pos h1] at hnone
        cases hnone
      · by_cases h2 : fs.Staging = .deleted ∨ fs.Worktree = .deleted
        · rw [if_neg h1, if_pos h2] at hnone
          cases hnone
        · rw [if_neg h1, if_neg h2, if_pos h3] at hnone
          cases hnone
  rcases hh : st.head p with _ | a <;> rcases hi : st.index p with _ | b <;>
    rcases hw : st.worktree p with _ | c2
  · exact ⟨rfl, rfl⟩
  · exact absurd (contra ⟨.untracked, .untracked⟩ (by simp [statusOf, hh, hi, hw])
      (.inl (.inr rfl))) not_false
  · exact absurd (contra ⟨.added, .deleted⟩ (by simp [statusOf, hh, hi, hw])
      (.inl (.inl rfl))) not_false
  · exact absurd (contra ⟨.added, if b = c2 then .unmodified else .modified⟩
      (by simp [statusOf, hh, hi, hw]) (.inl (.inl rfl))) not_false
  · exact absurd (contra ⟨.deleted, .unmodified⟩ (by simp [statusOf, hh, hi, hw])
      (.inr (.inl (.inl rfl)))) not_false
  · exact absurd (contra ⟨.deleted, .untracked⟩ (by simp [statusOf, hh, hi, hw])
      (.inr (.inl (.inl rfl)))) not_false
  · exact absurd (contra ⟨if a = b then .unmodified else .modified, .deleted⟩
      (by simp [statusOf, hh, hi, hw]) (.inr (.inl (.inr rfl)))) not_false
  · by_cases hab : a = b
    · by_cases hbc : b = c2
      · exact ⟨by rw [hab], by rw [hbc]⟩
      · exact absurd (contra ⟨.unmodified, .modified⟩
          (by simp [statusOf, hh, hi, hw, hab, hbc])
          (.inr (.inr (.inr rfl)))) not_false
    · exact absurd (contra ⟨.modified, if b = c2 then .unmodified else .modified⟩
        (by simp [statusOf, hh, hi, hw, hab]) (.inr (.inr (.inl rfl)))) not_false

theorem composeChangeFor_unmodified (p : String) :
    composeChangeFor p ⟨.unmodified, .unmodified⟩ = none := by
  unfold composeChangeFor
  split_ifs <;> first | rfl | simp_all

theorem statusOf_allEq_none {st : GitState} {p : String}
    (h1 : st.head p = st.index p) (h2 : st.index p = st.worktree p) :
    ∀ fs, statusOf st p = some fs → composeChangeFor p fs = none := by
  intro fs hS
  rcases hi : st.index p with _ | b
  · have hh : st.head p = none := by rw [h1, hi]
    have hw : st.worktree p = none := by rw [← h2, hi]
    rw [statusOf, hh, hi, hw] at hS
    cases hS
  · have hh : st.head p = some b := by rw [h1, hi]
    have hw : st.worktree p = some b := by rw [← h2, hi]
    rw [statusOf, hh, hi, hw] at hS
    simp only [if_pos rfl, Option.some.injEq] at hS
    rw [← hS]
    exact composeChangeFor_unmodified p

theorem second_scan_empty {st : GitState}
    (hC : findComposeChanges (wtStatus st) ≠ [])
    (hok : (commitLoopGo gitOps st (findComposeChanges (wtStatus st))).succeeded =
           findComposeChanges (wtStatus st)) :
    findComposeChanges (wtStatus (commitLoopGo gitOps st
      (findComposeChanges (wtStatus st))).state) = [] := by
  obtain ⟨hpaths, hhi, hq⟩ := commitLoopGo_all_ok_facts st hok hC
  rw [findComposeChanges, List.filterMap_eq_nil_iff]
  rintro ⟨p, fs⟩ hmem
  obtain ⟨hp, hS⟩ := mem_wtStatus_elim hmem
  show composeChangeFor p fs = none
  rcases hq p with hL | ⟨hi2, hw2, hnm⟩
  · exact statusOf_allEq_none (congrFun hhi p) hL fs hS
  · by_cases hcf : goBase p = "compose.yml" ∨ goBase p = "compose.yaml"
    · have hp0 : p ∈ st.paths := hpaths ▸ hp
      have hun := unclassified_of_not_mem_fps hp0 hnm
      have hEq := unclassified_state_eq hcf hun
      have hL : (commitLoopGo gitOps st
          (findComposeChanges (wtStatus st))).state.index p =
          (commitLoopGo gitOps st
            (findComposeChanges (wtStatus st))).state.worktree p := by
        rw [hi2, hw2]
        exact hEq.2
      exact statusOf_allEq_none (congrFun hhi p) hL fs hS
    · unfold composeChangeFor
      rw [if_pos]
      push_neg at hcf
      exact hcf

theorem gitOps_worktreeOk (st : GitState) : gitOps.worktreeOk st = .ok () := rfl

theorem gitOps_status (st : GitState) : gitOps.status st = .ok (wtStatus st) := rfl

theorem gitOps_push (st : GitState) : gitOps.push st = .ok st := rfl

theorem checkAndCommit_gitOps_changes (pushFlag : Bool) (st : GitState) :
    (checkAndCommit gitOps pushFlag st).changes = findComposeChanges (wtStatus st) := by
  unfold checkAndCommit
  simp only [gitOps_worktreeOk, gitOps_status, gitOps_push]
  by_cases hc : findComposeChanges (wtStatus st) = []
  · simp [hc]
  · simp only [hc, ite_false, if_false]
    by_cases hp : pushFlag ∧
        (commitLoopGo gitOps st (findComposeChanges (wtStatus st))).commitCount > 0
    · simp [hp]
    · by_cases h0 :
          (commitLoopGo gitOps st (findComposeChanges (wtStatus st))).commitCount = 0 <;>
        simp [hp, h0]

theorem checkAndCommit_gitOps_state (pushFlag : Bool) (st : GitState) :
    (checkAndCommit gitOps pushFlag st).state =
      if findComposeChanges (wtStatus st) = [] then st
      else (commitLoopGo gitOps st (findComposeChanges (wtStatus st))).state := by
  unfold checkAndCommit
  simp only [gitOps_worktreeOk, gitOps_status, gitOps_push]
  by_cases hc : findComposeChanges (wtStatus st) = []
  · simp [hc]
  · simp only [hc, ite_false, if_false]
    by_cases hp : pushFlag ∧
        (commitLoopGo gitOps st (findComposeChanges (wtStatus st))).commitCount > 0
    · simp [hp, hc]
    · by_cases h0 :
          (commitLoopGo gitOps st (findComposeChanges (wtStatus st))).commitCount = 0 <;>
        simp [hp, h0, hc]

theorem checkAndCommit_gitOps_succ (pushFlag : Bool) (st : GitState) :
    (checkAndCommit gitOps pushFlag st).succeeded =
      if findComposeChanges (wtStatus st) = [] then []
      else (commitLoopGo gitOps st (findComposeChanges (wtStatus st))).succeeded := by
  unfold checkAndCommit
  simp only [gitOps_worktreeOk, gitOps_status, gitOps_push]
  by_cases hc : findComposeChanges (wtStatus st) = []
  · simp [hc]
  · simp only [hc, ite_false, if_false]
    by_cases hp : pushFlag ∧
        (commitLoopGo gitOps st (findComposeChanges (wtStatus st))).commitCount > 0
    · simp [hp, hc]
    · by_cases h0 :
          (commitLoopGo gitOps st (findComposeChanges (wtStatus st))).commitCount = 0 <;>
        simp [hp, h0, hc]

theorem checkAndCommit_gitOps_count_of_nil (pushFlag : Bool) (st : GitState)
    (h : findComposeChanges (wtStatus st) = []) :
    (checkAndCommit gitOps pushFlag st).commitCount = 0 := by
  unfold checkAndCommit
  simp only [gitOps_worktreeOk, gitOps_status]
  simp [h]

end Watch

/-- C8: the cycle controller is idempotent over the modelled git backend:
if every Change classified in one cycle was successfully committed, then a
second cycle run on the resulting repository state — with no intervening
filesystem change — classifies zero Changes and creates zero commits. -/
theorem C8_cycle_idempotent (pushFlag : Bool) (st : Watch.GitState)
    (hsucc : (Watch.checkAndCommit Watch.gitOps pushFlag st).succeeded =
             (Watch.checkAndCommit Watch.gitOps pushFlag st).changes) :
    (Watch.checkAndCommit Watch.gitOps pushFlag
        (Watch.checkAndCommit Watch.gitOps pushFlag st).state).changes = [] ∧
    (Watch.checkAndCommit Watch.gitOps pushFlag
        (Watch.checkAndCommit Watch.gitOps pushFlag st).state).commitCount = 0 := by
  rw [Watch.checkAndCommit_gitOps_succ, Watch.checkAndCommit_gitOps_changes] at hsucc
  rw [Watch.checkAndCommit_gitOps_state]
  by_cases hc : Watch.findComposeChanges (Watch.wtStatus st) = []
  · rw [if_pos hc]
    exact ⟨(Watch.checkAndCommit_gitOps_changes pushFlag st).trans hc,
      Watch.checkAndCommit_gitOps_count_of_nil pushFlag st hc⟩
  · rw [if_neg hc]
    rw [if_neg hc] at hsucc
    have h2 := Watch.second_scan_empty hc hsucc
    exact ⟨(Watch.checkAndCommit_gitOps_changes pushFlag _).trans h2,
      Watch.checkAndCommit_gitOps_count_of_nil pushFlag _ h2⟩

theorem C8_cycle_idempotent_witness :
    ((Watch.checkAndCommit Watch.gitOps true Watch.singleUntrackedState).succeeded =
      (Watch.checkAndCommit Watch.gitOps true Watch.singleUntrackedState).changes) ∧
    ((Watch.checkAndCommit Watch.gitOps true
        (Watch.checkAndCommit Watch.gitOps true Watch.singleUntrackedState).state).changes
        = [] ∧
     (Watch.checkAndCommit Watch.gitOps true
        (Watch.checkAndCommit Watch.gitOps true Watch.singleUntrackedState).state).commitCount
        = 0) :=
  ⟨by decide, C8_cycle_idempotent true Watch.singleUntrackedState (by decide)⟩

end GitStackWatch
